import Mathlib

/-!
Shallow embedding of `huffmanCompressor.py` (class `Huffman`): the
`compress` and `decompress` methods, together with the helper structures
they build (frequency table, candidate working set, trace dictionary,
serialized frame).  Byte buffers are `List Nat` (each element a byte
value), bit strings (Python strings of `'0'`/`'1'` characters) are
`List Bool` (`false` = `'0'`, `true` = `'1'`), and Python exceptions are
modelled with `Except Err`.
-/

/-- Python runtime errors that the embedded code can raise. -/
inductive Err where
  /-- `IndexError`: sequence index out of range. -/
  | indexError
  /-- `KeyError`: dict lookup of a missing key. -/
  | keyError
  /-- `TypeError`: subscripting a non-subscriptable value. -/
  | typeError
  /-- `OverflowError`: `int.to_bytes(2, "big")` on a value above 65535. -/
  | overflowError
  /-- an error raised by `pickle.loads` on bytes that do not parse. -/
  | unpicklingError
  /-- fuel exhaustion of the embedded decode loop (unreachable: each
  iteration consumes at least one bit, and the fuel is the bit count). -/
  | fuelExhausted
deriving DecidableEq, Repr

/-- The dynamically-typed tree values of the source: a node is either a
Python `int` (a byte value, a leaf) or a two-element Python list
`[left, right]` (a branch); `compress` only ever builds two-element
lists (`branch_worker = [set1[0], set2[0]]` and the final top-level
tree). -/
inductive PyTree where
  | int (n : Nat)
  | pair (l r : PyTree)
deriving DecidableEq, Repr

/-! ### The tree codec (`pickle.dumps` / `pickle.loads`)

Modelled from the spec: `pickle` is the Python standard library, not
part of `src/`; §4.4 of the spec says any self-describing, round-trip
exact, length-measurable binary encoding of the tagged-variant tree
satisfies the Tree Codec contract, and that trailing bytes after one
pickled object are ignored by `loads`.  We use a tag byte (0 = int,
1 = list) and encode ints in little-endian base 255 terminated by a
255 byte. -/

/-- Little-endian base-255 digits of `n` (each digit < 255), computed
with `fuel ≥ n` steps. -/
def natDigits255 : Nat → Nat → List Nat
  | 0, _ => []
  | fuel + 1, n => if n = 0 then [] else n % 255 :: natDigits255 fuel (n / 255)

/-- Modelled from the spec: serialization of a Python int inside the
pickled blob — base-255 digits terminated by a 255 byte. -/
def encNat (n : Nat) : List Nat := natDigits255 n n ++ [255]

/-- Value of a little-endian base-255 digit list. -/
def decode255 (ds : List Nat) : Nat := ds.foldr (fun d acc => d + 255 * acc) 0

/-- Parser for `encNat`: reads digits up to the 255 terminator and
returns the digits together with the remaining bytes. -/
def parseDigits : List Nat → Option (List Nat × List Nat)
  | [] => none
  | d :: rest =>
    if d = 255 then some ([], rest)
    else if d < 255 then
      match parseDigits rest with
      | none => none
      | some (ds, r) => some (d :: ds, r)
    else none

/-- Parser for an encoded natural number; returns it and the remaining
bytes. -/
def parseNatNum (l : List Nat) : Option (Nat × List Nat) :=
  match parseDigits l with
  | none => none
  | some (ds, r) => some (decode255 ds, r)

/-- Modelled from the spec: `pickle.dumps` on the nested-list tree —
tag byte 0 for an int, tag byte 1 followed by both children for a
two-element list. -/
def dumps : PyTree → List Nat
  | .int n => 0 :: encNat n
  | .pair a b => 1 :: (dumps a ++ dumps b)

/-- Parser for `dumps`, with fuel bounding the recursion depth; returns
the parsed tree and the remaining (ignored) bytes. -/
def parseTree : Nat → List Nat → Option (PyTree × List Nat)
  | 0, _ => none
  | fuel + 1, l =>
    match l with
    | 0 :: rest =>
      match parseNatNum rest with
      | none => none
      | some (n, r) => some (.int n, r)
    | 1 :: rest =>
      match parseTree fuel rest with
      | none => none
      | some (a, r1) =>
        match parseTree fuel r1 with
        | none => none
        | some (b, r2) => some (.pair a b, r2)
    | _ => none

/-- Number of nodes of a tree (used to bound the parser fuel). -/
def nodeCount : PyTree → Nat
  | .int _ => 1
  | .pair a b => 1 + nodeCount a + nodeCount b

/-- Modelled from the spec: `pickle.loads` — parses one pickled object
from the front of the byte list (trailing bytes are ignored, as for
`pickle.loads`), failing on bytes that do not parse. -/
def loads (l : List Nat) : Except Err PyTree :=
  match parseTree (l.length + 1) l with
  | some (t, _) => .ok t
  | none => .error .unpicklingError

/-! ### Big-endian 2-byte length field -/

/-- `n.to_bytes(2, "big")` for an in-range value `n < 65536`. -/
def toBytes2BE (n : Nat) : List Nat := [n / 256, n % 256]

/-- `int.from_bytes(bs, "big")` (works on byte strings of any length,
including the empty one, exactly like the Python builtin). -/
def fromBytes2BE (bs : List Nat) : Nat := bs.foldl (fun acc b => 256 * acc + b) 0

/-! ### Frequency counting (lines 137-143) -/

/-- One iteration of the frequency-counting loop: increment the count
of `c` in the dict (kept as an insertion-ordered association list, like
a Python dict), or append a fresh entry `(c, 1)`. -/
def addFreq (d : List (Nat × Nat)) (c : Nat) : List (Nat × Nat) :=
  match d with
  | [] => [(c, 1)]
  | (k, v) :: t => if k = c then (k, v + 1) :: t else (k, v) :: addFreq t c

/-- The `working_frequency` dict of `compress` (lines 137-143): byte
value to occurrence count, keys in first-appearance order. -/
def buildFrequency (worker : List Nat) : List (Nat × Nat) :=
  worker.foldl addFreq []

/-! ### The tree builder (lines 150-172) -/

/-- A candidate of the working set `sorted_frequency`: the tuple
`(worker, frequency, trace-dict)` of the source, with the trace dict an
association list from byte value to its code path. -/
structure Cand where
  node : PyTree
  freq : Nat
  trace : List (Nat × List Bool)
deriving DecidableEq, Repr

/-- Sort key for the initial sort (line 151): descending by frequency
(`sorted(..., key=lambda keys: keys[1], reverse=True)`). -/
def freqGE (a b : Nat × Nat) : Prop := b.2 ≤ a.2

instance : DecidableRel freqGE := fun a b => inferInstanceAs (Decidable (b.2 ≤ a.2))

instance : IsTotal (Nat × Nat) freqGE := ⟨fun a b => Nat.le_total b.2 a.2⟩

instance : IsTrans (Nat × Nat) freqGE := ⟨fun _ _ _ h1 h2 => Nat.le_trans h2 h1⟩

/-- Sort key for the re-sort inside the loop (lines 168-169):
descending by candidate frequency. -/
def candGE (a b : Cand) : Prop := b.freq ≤ a.freq

instance : DecidableRel candGE := fun a b => inferInstanceAs (Decidable (b.freq ≤ a.freq))

instance : IsTotal Cand candGE := ⟨fun a b => Nat.le_total b.freq a.freq⟩

instance : IsTrans Cand candGE := ⟨fun _ _ _ h1 h2 => Nat.le_trans h2 h1⟩

/-- `char_count` (line 154): prepend the new bit to every code path of
a trace dict (`{char: app_val + counter for char, counter in
count_loc.items()}`). -/
def char_count (app_val : Bool) (count_loc : List (Nat × List Bool)) : List (Nat × List Bool) :=
  count_loc.map fun p => (p.1, app_val :: p.2)

/-- Line 151: the initial working set — the frequency items sorted
descending by count (Python's `sorted` is stable; a stable insertion
sort computes the same list), each made into `(char, freq, {char: ""})`. -/
def initialCandidates (freq : List (Nat × Nat)) : List Cand :=
  (List.insertionSort freqGE freq).map fun p => ⟨.int p.1, p.2, [(p.1, [])]⟩

/-- Lines 157-164: the combined branch element built from the two
popped candidates — `([set1[0], set2[0]], set1[1] + set2[1],
char_count("0", set1[2]) | char_count("1", set2[2]))` (the two trace
dicts have disjoint keys, so the dict union is concatenation). -/
def combineCands (s1 s2 : Cand) : Cand :=
  ⟨.pair s1.node s2.node, s1.freq + s2.freq,
    char_count false s1.trace ++ char_count true s2.trace⟩

/-- One iteration of the while loop (lines 156-169): pop the last two
elements (`set1 = pop(-1)` the last, `set2 = pop(-1)` the new last),
append the combined branch, and re-sort descending by frequency. -/
def buildStep (l : List Cand) : List Cand :=
  match l.reverse with
  | s1 :: s2 :: rest => List.insertionSort candGE (rest.reverse ++ [combineCands s1 s2])
  | _ => l

/-- The while loop `while len(sorted_frequency) > 2` (line 156), with
fuel; each iteration shortens the list by one, so fuel equal to the
initial length always suffices. -/
def buildLoopFuel : Nat → List Cand → List Cand
  | 0, l => l
  | fuel + 1, l => if 2 < l.length then buildLoopFuel fuel (buildStep l) else l

/-- The fully-run while loop of lines 156-169. -/
def buildLoop (l : List Cand) : List Cand := buildLoopFuel l.length l

/-- Lines 171-172: strip the final working set to the stored tree
(`[branch[0] for branch in sorted_frequency]`, a two-element list in
every reachable state) and build the final trace dict from
`sorted_frequency[0]` and `sorted_frequency[1]`; raises `IndexError`
when fewer than two candidates remain (empty or single-symbol input). -/
def finishTreeTrace (l : List Cand) : Except Err (PyTree × List (Nat × List Bool)) :=
  match l with
  | s0 :: s1 :: _ =>
    .ok (.pair s0.node s1.node, char_count false s0.trace ++ char_count true s1.trace)
  | _ => .error .indexError

/-- The whole tree-builder phase of `compress` (lines 150-172). -/
def buildTreeTrace (worker : List Nat) : Except Err (PyTree × List (Nat × List Bool)) :=
  finishTreeTrace (buildLoop (initialCandidates (buildFrequency worker)))

/-! ### Bit packing (lines 177-192) -/

/-- Line 177: `encoded = "".join([trace[char] for char in worker])`;
a missing key raises `KeyError`, modelled by `none`. -/
def encodeWorker (trace : List (Nat × List Bool)) : List Nat → Option (List Bool)
  | [] => some []
  | c :: rest =>
    match List.lookup c trace with
    | none => none
    | some code =>
      match encodeWorker trace rest with
      | none => none
      | some tail => some (code ++ tail)

/-- `int(chunk, 2)` on a chunk of `'0'`/`'1'` characters: most
significant bit first. -/
def bitsToNat (bits : List Bool) : Nat :=
  bits.foldl (fun acc b => 2 * acc + (if b then 1 else 0)) 0

/-- Lines 189-190: split the padded bit string into 8-character chunks
and convert each to an integer (fuel: each step consumes at least one
bit, so the bit count suffices). -/
def chunkBytes : Nat → List Bool → List Nat
  | 0, _ => []
  | fuel + 1, l =>
    match l with
    | [] => []
    | _ :: _ => bitsToNat (l.take 8) :: chunkBytes fuel (l.drop 8)

/-! ### Frame assembly (lines 197-202) -/

/-- The `try` block of lines 197-202: pickle the tree, convert its
length to a 2-byte big-endian field (an `OverflowError` if the length
does not fit, caught and re-raised by the source), and concatenate
`len_tree + pickle_tree + byte_convert` into `self.output`. -/
def finalizeOutput (tree : PyTree) (byte_convert : List Nat) : Except Err (List Nat) :=
  let pickle_tree := dumps tree
  if pickle_tree.length < 65536 then
    .ok (toBytes2BE pickle_tree.length ++ pickle_tree ++ byte_convert)
  else
    .error .overflowError

/-- The value of the `self.output` field after the lines 197-202 run
starting from prior value `old`: the assignment `self.output = ...`
happens only when `dumps` and `to_bytes` succeed; an exception leaves
the field untouched. -/
def outputAfterFinalize (old : List Nat) (tree : PyTree) (byte_convert : List Nat) : List Nat :=
  match finalizeOutput tree byte_convert with
  | .ok out => out
  | .error _ => old

/-- `Huffman.compress` (lines 127-202) on the worker byte string,
returning the produced frame (`self.output`) or the exception raised. -/
def compress (worker : List Nat) : Except Err (List Nat) :=
  match buildTreeTrace worker with
  | .error e => .error e
  | .ok (tree, trace) =>
    match encodeWorker trace worker with
    | none => .error .keyError
    | some encoded =>
      -- lines 181-184: append '1' bits until the length is a multiple of 8
      let padding := (8 - encoded.length % 8) % 8
      let encodedP := encoded ++ List.replicate padding true
      -- line 188: the number of padding bits is the first byte
      let byte_convert := padding :: chunkBytes encodedP.length encodedP
      finalizeOutput tree byte_convert

/-- The working set of the tree-builder loop after `k` iterations of
the loop body, starting from the initial sorted candidate list of
`worker` (used to state the per-iteration loop invariants). -/
def workingSetAt (worker : List Nat) (k : Nat) : List Cand :=
  buildStep^[k] (initialCandidates (buildFrequency worker))

/-! ### Decompression (lines 207-256) -/

/-- The inner `recursion` function of `decompress` (lines 209-225):
take the first bit of the section (`IndexError` if it is empty), index
the branch with it (`TypeError` if the branch is an int — ints are not
subscriptable), return the byte if a leaf was reached, else recurse. -/
def recursion (branch : PyTree) (sec : List Bool) : Except Err (Nat × List Bool) :=
  match sec with
  | [] => .error .indexError
  | bit :: cut_down =>
    match branch with
    | .int _ => .error .typeError
    | .pair a b =>
      match if bit then b else a with
      | .int c => .ok (c, cut_down)
      | .pair x y => recursion (.pair x y) cut_down

/-- The `while bit_string:` decode loop (lines 251-254), with fuel;
each call of `recursion` consumes at least one bit, so fuel equal to
the bit count always suffices. -/
def decodeLoop (fuel : Nat) (tree : PyTree) (bits : List Bool) : Except Err (List Nat) :=
  match bits with
  | [] => .ok []
  | _ :: _ =>
    match fuel with
    | 0 => .error .fuelExhausted
    | f + 1 =>
      match recursion tree bits with
      | .error e => .error e
      | .ok (c, rest) =>
        match decodeLoop f tree rest with
        | .error e => .error e
        | .ok tl => .ok (c :: tl)

/-- `bin(num)[2:].zfill(8)`: the binary digits of a byte, most
significant first, left-padded with `'0'` to (at least) 8 characters. -/
def natBits : Nat → Nat → List Bool
  | 0, _ => []
  | fuel + 1, n => if n = 0 then [] else natBits fuel (n / 2) ++ [decide (n % 2 = 1)]

/-- The per-byte bit conversion of lines 241-242. -/
def toBits8 (n : Nat) : List Bool :=
  let bits := natBits n n
  List.replicate (8 - bits.length) false ++ bits

/-- `Huffman.decompress` (lines 207-256) on the worker byte string,
returning the recovered bytes (`self.output`) or the exception raised.
Note line 244: `bit_string[:-padding]` — when `padding` is `0` the
Python slice `[:-0]` is `[:0]`, the empty string. -/
def decompress (worker : List Nat) : Except Err (List Nat) :=
  let len_tree := fromBytes2BE (worker.take 2)
  match loads ((worker.drop 2).take len_tree) with
  | .error e => .error e
  | .ok decomp_tree =>
    match (worker.drop (len_tree + 2)).head? with
    | none => .error .indexError
    | some padding =>
      let decomp_string := worker.drop (len_tree + 3)
      let bit_string := (decomp_string.map toBits8).flatten
      let bit_string' :=
        if padding = 0 then [] else bit_string.take (bit_string.length - padding)
      decodeLoop bit_string'.length decomp_tree bit_string'

/-! ### Derived notions used by the claims -/

/-- The keys of a trace dict. -/
def keysOf (tr : List (Nat × List Bool)) : List Nat := tr.map Prod.fst

/-- All keys of all trace dicts of a working set, in order. -/
def allKeys (l : List Cand) : List Nat := (l.map fun c => keysOf c.trace).flatten

/-- A trace dict is prefix-free: the codes of two entries with distinct
keys are never bit-prefixes of one another. -/
def PrefixFree (tr : List (Nat × List Bool)) : Prop :=
  ∀ a ∈ tr, ∀ b ∈ tr, a.1 ≠ b.1 → ¬ a.2 <+: b.2

/-! ### Lemmas about the tree codec -/

theorem natDigits255_lt : ∀ fuel n, ∀ d ∈ natDigits255 fuel n, d < 255 := by
  intro fuel
  induction fuel with
  | zero => intro n d hd; simp [natDigits255] at hd
  | succ f ih =>
    intro n d hd
    by_cases h0 : n = 0
    · simp [natDigits255, h0] at hd
    · simp only [natDigits255, h0, if_false, List.mem_cons] at hd
      rcases hd with h | h
      · subst h; exact Nat.mod_lt _ (by omega)
      · exact ih _ _ h

theorem decode255_natDigits255 : ∀ fuel n, n ≤ fuel → decode255 (natDigits255 fuel n) = n := by
  intro fuel
  induction fuel with
  | zero => intro n hn; interval_cases n; simp [natDigits255, decode255]
  | succ f ih =>
    intro n hn
    by_cases h0 : n = 0
    · simp [natDigits255, h0, decode255]
    · have hdiv : n / 255 ≤ f := by
        have : n / 255 < n := Nat.div_lt_self (by omega) (by omega)
        omega
      simp only [natDigits255, h0, if_false, decode255, List.foldr_cons]
      have := ih (n / 255) hdiv
      simp only [decode255] at this
      rw [this, Nat.mod_add_div]

theorem parseDigits_append :
    ∀ (ds : List Nat), (∀ d ∈ ds, d < 255) → ∀ r, parseDigits (ds ++ 255 :: r) = some (ds, r) := by
  intro ds
  induction ds with
  | nil => intro _ r; simp [parseDigits]
  | cons d t ih =>
    intro h r
    have hd : d < 255 := h d (by simp)
    simp only [List.cons_append, parseDigits, if_neg (by omega : ¬ d = 255), if_pos hd]
    have hih := ih (fun x hx => h x (by simp [hx])) r
    simp [hih]

theorem parseNatNum_encNat (n : Nat) (r : List Nat) :
    parseNatNum (encNat n ++ r) = some (n, r) := by
  unfold parseNatNum encNat
  rw [List.append_assoc, List.cons_append, List.nil_append,
    parseDigits_append _ (natDigits255_lt n n) r]
  simp [decode255_natDigits255 n n (Nat.le_refl n)]

theorem one_le_length_dumps : ∀ t : PyTree, 1 ≤ (dumps t).length := by
  intro t; cases t <;> simp [dumps]

theorem nodeCount_le_length_dumps : ∀ t : PyTree, nodeCount t ≤ (dumps t).length := by
  intro t
  induction t with
  | int n => simp [nodeCount, dumps]
  | pair a b iha ihb => simp [nodeCount, dumps]; omega

theorem parseTree_dumps :
    ∀ (t : PyTree) (fuel : Nat) (r : List Nat), nodeCount t ≤ fuel →
      parseTree fuel (dumps t ++ r) = some (t, r) := by
  intro t
  induction t with
  | int n =>
    intro fuel r hfuel
    cases fuel with
    | zero => simp [nodeCount] at hfuel
    | succ f =>
      simp only [dumps, List.cons_append, parseTree, parseNatNum_encNat]
  | pair a b iha ihb =>
    intro fuel r hfuel
    cases fuel with
    | zero => simp [nodeCount] at hfuel
    | succ f =>
      have ha : nodeCount a ≤ f := by simp [nodeCount] at hfuel; omega
      have hb : nodeCount b ≤ f := by simp [nodeCount] at hfuel; omega
      simp only [dumps, List.cons_append, parseTree, List.append_assoc]
      rw [iha f (dumps b ++ r) ha]
      simp [ihb f r hb]

theorem loads_dumps (t : PyTree) : loads (dumps t) = .ok t := by
  unfold loads
  have h : parseTree ((dumps t).length + 1) (dumps t) = some (t, []) := by
    have hp := parseTree_dumps t ((dumps t).length + 1) []
      (by have := nodeCount_le_length_dumps t; omega)
    simpa using hp
  rw [h]

/-! ### Lemmas about the tree-builder working set -/

theorem keysOf_char_count (b : Bool) (tr : List (Nat × List Bool)) :
    keysOf (char_count b tr) = keysOf tr := by
  simp [keysOf, char_count]

theorem allKeys_perm {l l' : List Cand} (h : l.Perm l') : (allKeys l).Perm (allKeys l') :=
  (h.map _).flatten

theorem allKeys_append (l l' : List Cand) : allKeys (l ++ l') = allKeys l ++ allKeys l' := by
  simp [allKeys]

theorem eq_append_of_reverse {l : List Cand} {s1 s2 : Cand} {rest : List Cand}
    (h : l.reverse = s1 :: s2 :: rest) : l = rest.reverse ++ [s2, s1] := by
  have h2 := congrArg List.reverse h
  simpa using h2

theorem buildStep_of_reverse {l : List Cand} {s1 s2 : Cand} {rest : List Cand}
    (h : l.reverse = s1 :: s2 :: rest) :
    buildStep l = List.insertionSort candGE (rest.reverse ++ [combineCands s1 s2]) := by
  unfold buildStep
  rw [h]

theorem buildStep_of_nil {l : List Cand} (h : l.reverse = []) : buildStep l = l := by
  unfold buildStep
  rw [h]

theorem buildStep_of_one {l : List Cand} {s : Cand} (h : l.reverse = [s]) : buildStep l = l := by
  unfold buildStep
  rw [h]

theorem length_buildStep {l : List Cand} (h : 2 ≤ l.length) :
    (buildStep l).length + 1 = l.length := by
  rcases hrev : l.reverse with _ | ⟨s1, _ | ⟨s2, rest⟩⟩
  · have hlen := congrArg List.length hrev
    simp only [List.length_reverse, List.length_nil] at hlen
    omega
  · have hlen := congrArg List.length hrev
    simp only [List.length_reverse, List.length_cons, List.length_nil] at hlen
    omega
  · rw [buildStep_of_reverse hrev]
    have hlen := congrArg List.length hrev
    simp only [List.length_reverse, List.length_cons] at hlen
    simp [List.length_insertionSort]
    omega

theorem length_buildLoopFuel : ∀ (fuel : Nat) (l : List Cand), l.length ≤ fuel + 2 →
    (buildLoopFuel fuel l).length ≤ 2 := by
  intro fuel
  induction fuel with
  | zero => intro l h; simpa [buildLoopFuel] using h
  | succ f ih =>
    intro l h
    by_cases h2 : 2 < l.length
    · simp only [buildLoopFuel, if_pos h2]
      apply ih
      have := length_buildStep (l := l) (by omega)
      omega
    · simp only [buildLoopFuel, if_neg h2]
      omega

theorem length_buildLoop (l : List Cand) : (buildLoop l).length ≤ 2 :=
  length_buildLoopFuel l.length l (by omega)

theorem prefixFree_combine {t1 t2 : List (Nat × List Bool)}
    (h1 : PrefixFree t1) (h2 : PrefixFree t2) :
    PrefixFree (char_count false t1 ++ char_count true t2) := by
  intro a ha b hb hne hpre
  rw [List.mem_append] at ha hb
  rcases ha with ha | ha <;> rcases hb with hb | hb
  · obtain ⟨p, hp, rfl⟩ := List.mem_map.mp ha
    obtain ⟨q, hq, rfl⟩ := List.mem_map.mp hb
    exact h1 p hp q hq hne (List.cons_prefix_cons.mp hpre).2
  · obtain ⟨p, hp, rfl⟩ := List.mem_map.mp ha
    obtain ⟨q, hq, rfl⟩ := List.mem_map.mp hb
    exact absurd (List.cons_prefix_cons.mp hpre).1 (by simp)
  · obtain ⟨p, hp, rfl⟩ := List.mem_map.mp ha
    obtain ⟨q, hq, rfl⟩ := List.mem_map.mp hb
    exact absurd (List.cons_prefix_cons.mp hpre).1 (by simp)
  · obtain ⟨p, hp, rfl⟩ := List.mem_map.mp ha
    obtain ⟨q, hq, rfl⟩ := List.mem_map.mp hb
    exact h2 p hp q hq hne (List.cons_prefix_cons.mp hpre).2

theorem prefixFree_buildStep {l : List Cand} (hl : ∀ c ∈ l, PrefixFree c.trace) :
    ∀ c ∈ buildStep l, PrefixFree c.trace := by
  rcases hrev : l.reverse with _ | ⟨s1, _ | ⟨s2, rest⟩⟩
  · rw [buildStep_of_nil hrev]; exact hl
  · rw [buildStep_of_one hrev]; exact hl
  · rw [buildStep_of_reverse hrev]
    intro c hc
    rw [List.mem_insertionSort] at hc
    have hs1 : s1 ∈ l := by
      rw [← List.mem_reverse, hrev]; simp
    have hs2 : s2 ∈ l := by
      rw [← List.mem_reverse, hrev]; simp
    rcases List.mem_append.mp hc with hc | hc
    · apply hl
      rw [eq_append_of_reverse hrev]
      exact List.mem_append.mpr (Or.inl hc)
    · have hcc : c = combineCands s1 s2 := by simpa using hc
      subst hcc
      exact prefixFree_combine (hl s1 hs1) (hl s2 hs2)

theorem allKeys_buildStep (l : List Cand) : (allKeys (buildStep l)).Perm (allKeys l) := by
  rcases hrev : l.reverse with _ | ⟨s1, _ | ⟨s2, rest⟩⟩
  · rw [buildStep_of_nil hrev]
  · rw [buildStep_of_one hrev]
  · rw [buildStep_of_reverse hrev]
    refine (allKeys_perm (List.perm_insertionSort _ _)).trans ?_
    rw [eq_append_of_reverse hrev, allKeys_append, allKeys_append]
    apply List.Perm.append_left
    have hk : allKeys [combineCands s1 s2] = keysOf s1.trace ++ keysOf s2.trace := by
      simp only [allKeys, List.map_cons, List.map_nil, List.flatten_cons, List.flatten_nil,
        List.append_nil, combineCands, keysOf, char_count, List.map_append, List.map_map]
      rfl
    have hk2 : allKeys [s2, s1] = keysOf s2.trace ++ keysOf s1.trace := by
      simp [allKeys, keysOf]
    rw [hk, hk2]
    exact List.perm_append_comm

theorem allKeys_buildLoopFuel : ∀ (fuel : Nat) (l : List Cand),
    (allKeys (buildLoopFuel fuel l)).Perm (allKeys l) := by
  intro fuel
  induction fuel with
  | zero => intro l; simp [buildLoopFuel]
  | succ f ih =>
    intro l
    by_cases h2 : 2 < l.length
    · simp only [buildLoopFuel, if_pos h2]
      exact (ih (buildStep l)).trans (allKeys_buildStep l)
    · simp [buildLoopFuel, if_neg h2]

theorem prefixFree_buildLoopFuel : ∀ (fuel : Nat) (l : List Cand),
    (∀ c ∈ l, PrefixFree c.trace) → ∀ c ∈ buildLoopFuel fuel l, PrefixFree c.trace := by
  intro fuel
  induction fuel with
  | zero => intro l h; simpa [buildLoopFuel] using h
  | succ f ih =>
    intro l h
    by_cases h2 : 2 < l.length
    · simp only [buildLoopFuel, if_pos h2]
      exact ih (buildStep l) (prefixFree_buildStep h)
    · simpa [buildLoopFuel, if_neg h2] using h

/-! ### Keys of the frequency table -/

theorem keys_addFreq (d : List (Nat × Nat)) (c : Nat) :
    (addFreq d c).map Prod.fst =
      if c ∈ d.map Prod.fst then d.map Prod.fst else d.map Prod.fst ++ [c] := by
  induction d with
  | nil => simp [addFreq]
  | cons kv t ih =>
    obtain ⟨k, v⟩ := kv
    by_cases hk : k = c
    · subst hk
      simp [addFreq]
    · have hck : ¬ c = k := fun h => hk h.symm
      simp only [addFreq, if_neg hk, List.map_cons, ih, List.mem_cons, hck, false_or]
      by_cases hc : c ∈ t.map Prod.fst
      · simp [hc]
      · simp [hc]

theorem nodup_keys_buildFrequency (worker : List Nat) :
    ((buildFrequency worker).map Prod.fst).Nodup := by
  suffices h : ∀ d : List (Nat × Nat), (d.map Prod.fst).Nodup →
      ((worker.foldl addFreq d).map Prod.fst).Nodup from h [] (by simp)
  induction worker with
  | nil => intro d hd; simpa using hd
  | cons c rest ih =>
    intro d hd
    rw [List.foldl_cons]
    apply ih
    rw [keys_addFreq]
    by_cases hc : c ∈ d.map Prod.fst
    · simpa [hc] using hd
    · simp [hc, List.nodup_append, hd]

/-! ### The initial working set -/

theorem flatten_map_singleton {α β : Type} (f : α → β) :
    ∀ l : List α, (l.map fun x => [f x]).flatten = l.map f := by
  intro l
  induction l with
  | nil => simp
  | cons a t ih => simp [ih]

theorem allKeys_initialCandidates (freq : List (Nat × Nat)) :
    (allKeys (initialCandidates freq)).Perm (freq.map Prod.fst) := by
  unfold allKeys initialCandidates
  rw [List.map_map]
  have hmaps : ((List.insertionSort freqGE freq).map
      ((fun c : Cand => keysOf c.trace) ∘ fun p : Nat × Nat => ⟨.int p.1, p.2, [(p.1, [])]⟩)) =
      (List.insertionSort freqGE freq).map fun p : Nat × Nat => [p.1] := by
    apply List.map_congr_left
    intro p _
    rfl
  rw [hmaps, flatten_map_singleton (fun p : Nat × Nat => p.1)]
  exact (List.perm_insertionSort freqGE freq).map _

theorem prefixFree_initialCandidates (freq : List (Nat × Nat)) :
    ∀ c ∈ initialCandidates freq, PrefixFree c.trace := by
  intro c hc
  unfold initialCandidates at hc
  obtain ⟨p, hp, rfl⟩ := List.mem_map.mp hc
  intro a ha b hb hne
  simp only [List.mem_singleton] at ha hb
  subst ha; subst hb
  exact absurd rfl hne

/-- C5: for every compression of a buffer with at least 2 distinct byte
values (exactly the buffers on which the tree-builder phase succeeds),
the resulting trace dictionary (Code Table) has exactly one entry for
every byte value present in the frequency table — its key list is a
permutation of the frequency table's key list and has no duplicates —
and no code in it is a bit-prefix of the code of another entry. -/
theorem c5_code_table_complete_prefix_free (worker : List Nat) (tree : PyTree)
    (trace : List (Nat × List Bool)) (h : buildTreeTrace worker = .ok (tree, trace)) :
    (trace.map Prod.fst).Perm ((buildFrequency worker).map Prod.fst) ∧
    (trace.map Prod.fst).Nodup ∧
    ∀ a ∈ trace, ∀ b ∈ trace, a.1 ≠ b.1 → ¬ a.2 <+: b.2 := by
  unfold buildTreeTrace at h
  rcases hl : buildLoop (initialCandidates (buildFrequency worker)) with _ | ⟨s0, tl⟩
  · rw [hl] at h; simp [finishTreeTrace] at h
  · cases tl with
    | nil => rw [hl] at h; simp [finishTreeTrace] at h
    | cons s1 rest =>
      rw [hl] at h
      simp only [finishTreeTrace, Except.ok.injEq, Prod.mk.injEq] at h
      obtain ⟨-, htrace⟩ := h
      have hrest : rest = [] := by
        have hlen := length_buildLoop (initialCandidates (buildFrequency worker))
        rw [hl] at hlen
        simp only [List.length_cons] at hlen
        cases rest with
        | nil => rfl
        | cons x xs => simp at hlen
      subst hrest
      have hperm0 : (allKeys (buildLoop (initialCandidates (buildFrequency worker)))).Perm
          (allKeys (initialCandidates (buildFrequency worker))) := by
        unfold buildLoop
        exact allKeys_buildLoopFuel _ _
      have hpf : ∀ c ∈ buildLoop (initialCandidates (buildFrequency worker)),
          PrefixFree c.trace := by
        unfold buildLoop
        exact prefixFree_buildLoopFuel _ _ (prefixFree_initialCandidates _)
      have hkeys : trace.map Prod.fst = allKeys [s0, s1] := by
        rw [← htrace]
        simp only [allKeys, keysOf, List.map_cons, List.map_nil, List.flatten_cons,
          List.flatten_nil, List.append_nil, List.map_append, char_count, List.map_map]
        rfl
      have hchain : (trace.map Prod.fst).Perm ((buildFrequency worker).map Prod.fst) := by
        rw [hkeys, ← hl]
        exact hperm0.trans (allKeys_initialCandidates _)
      refine ⟨hchain, ?_, ?_⟩
      · exact (hchain.nodup_iff).mpr (nodup_keys_buildFrequency worker)
      · rw [← htrace]
        have hs0 : s0 ∈ buildLoop (initialCandidates (buildFrequency worker)) := by
          rw [hl]; simp
        have hs1 : s1 ∈ buildLoop (initialCandidates (buildFrequency worker)) := by
          rw [hl]; simp
        exact prefixFree_combine (hpf s0 hs0) (hpf s1 hs1)

/-- C5 witness: the claim instantiated on the two-byte buffer `b"ab"`. -/
theorem c5_witness :
    ((([(97, [false]), (98, [true])] : List (Nat × List Bool)).map Prod.fst).Perm
      ((buildFrequency [97, 98]).map Prod.fst)) ∧
    ((([(97, [false]), (98, [true])] : List (Nat × List Bool)).map Prod.fst).Nodup) ∧
    (∀ a ∈ ([(97, [false]), (98, [true])] : List (Nat × List Bool)),
      ∀ b ∈ ([(97, [false]), (98, [true])] : List (Nat × List Bool)),
        a.1 ≠ b.1 → ¬ a.2 <+: b.2) :=
  c5_code_table_complete_prefix_free [97, 98] (.pair (.int 97) (.int 98))
    [(97, [false]), (98, [true])] rfl

/-! ### Sortedness of the working set -/

theorem dropLast_append_of_getLast? {α : Type} : ∀ {l : List α} {a : α},
    l.getLast? = some a → l.dropLast ++ [a] = l := by
  intro l
  induction l with
  | nil => intro a ha; simp at ha
  | cons c t ih =>
    intro a ha
    cases t with
    | nil =>
      simp only [List.getLast?_singleton, Option.some.injEq] at ha
      subst ha; rfl
    | cons d t2 =>
      rw [List.getLast?_cons_cons] at ha
      have he := ih ha
      rw [List.dropLast_cons₂, List.cons_append, he]

theorem sorted_initialCandidates (freq : List (Nat × Nat)) :
    List.Sorted candGE (initialCandidates freq) := by
  unfold initialCandidates
  exact List.Pairwise.map (fun p : Nat × Nat => (⟨.int p.1, p.2, [(p.1, [])]⟩ : Cand))
    (fun a b h => h) (List.sorted_insertionSort freqGE freq)

theorem sorted_buildStep {l : List Cand} (h : List.Sorted candGE l) :
    List.Sorted candGE (buildStep l) := by
  rcases hrev : l.reverse with _ | ⟨s1, _ | ⟨s2, rest⟩⟩
  · rw [buildStep_of_nil hrev]; exact h
  · rw [buildStep_of_one hrev]; exact h
  · rw [buildStep_of_reverse hrev]; exact List.sorted_insertionSort _ _

theorem sorted_workingSetAt (worker : List Nat) (k : Nat) :
    List.Sorted candGE (workingSetAt worker k) := by
  induction k with
  | zero => exact sorted_initialCandidates _
  | succ n ih =>
    unfold workingSetAt
    rw [Function.iterate_succ_apply']
    exact sorted_buildStep ih

theorem getLast?_min_of_sorted : ∀ (l : List Cand), List.Sorted candGE l →
    ∀ a, l.getLast? = some a → ∀ x ∈ l, a.freq ≤ x.freq := by
  intro l
  induction l with
  | nil => intro _ a ha; simp at ha
  | cons c t ih =>
    intro hs a ha x hx
    cases t with
    | nil =>
      simp only [List.getLast?_singleton, Option.some.injEq] at ha
      simp only [List.mem_singleton] at hx
      subst ha; subst hx
      exact Nat.le_refl _
    | cons d t2 =>
      rw [List.getLast?_cons_cons] at ha
      rcases List.mem_cons.mp hx with hx | hx
      · subst hx
        have hmem : a ∈ d :: t2 := by
          rw [← dropLast_append_of_getLast? ha]
          simp
        exact List.rel_of_sorted_cons hs a hmem
      · exact ih hs.of_cons a ha x hx

/-- C6: at every iteration of the tree-builder loop (any working set
reached after `k` applications of the loop body, whenever it still has
more than 2 candidates), the two candidates the body removes — `set1`,
the last element of the descending-sorted working set, and `set2`, the
last element of the rest — have the lowest aggregate frequencies of the
whole working set, and the body combines exactly those two into the new
branch candidate (ties are broken deterministically: the body is a pure
function of the working set). -/
theorem c6_lowest_two_selected (worker : List Nat) (k : Nat) (s1 s2 : Cand)
    (hlen : 2 < (workingSetAt worker k).length)
    (h1 : (workingSetAt worker k).getLast? = some s1)
    (h2 : (workingSetAt worker k).dropLast.getLast? = some s2) :
    (∀ x ∈ workingSetAt worker k, s1.freq ≤ x.freq) ∧
    (∀ x ∈ (workingSetAt worker k).dropLast, s2.freq ≤ x.freq) ∧
    buildStep (workingSetAt worker k) =
      List.insertionSort candGE
        ((workingSetAt worker k).dropLast.dropLast ++ [combineCands s1 s2]) := by
  set l := workingSetAt worker k with hldef
  have hsort : List.Sorted candGE l := sorted_workingSetAt worker k
  have hmin1 : ∀ x ∈ l, s1.freq ≤ x.freq := getLast?_min_of_sorted l hsort s1 h1
  have hsort2 : List.Sorted candGE l.dropLast :=
    hsort.sublist (List.dropLast_sublist l)
  have hmin2 : ∀ x ∈ l.dropLast, s2.freq ≤ x.freq :=
    getLast?_min_of_sorted l.dropLast hsort2 s2 h2
  have e1 : l.dropLast ++ [s1] = l := dropLast_append_of_getLast? h1
  have e2 : l.dropLast.dropLast ++ [s2] = l.dropLast := dropLast_append_of_getLast? h2
  have hfl : l = l.dropLast.dropLast ++ [s2, s1] := by
    conv_lhs => rw [← e1, ← e2]
    simp
  have hrev : l.reverse = s1 :: s2 :: l.dropLast.dropLast.reverse := by
    conv_lhs => rw [hfl]
    simp
  refine ⟨hmin1, hmin2, ?_⟩
  rw [buildStep_of_reverse hrev, List.reverse_reverse]

/-- C6 witness: the claim instantiated at iteration 0 on the buffer
`bytes([0, 0, 1, 1, 2])` (three distinct byte values). -/
theorem c6_witness :
    (∀ x ∈ workingSetAt [0, 0, 1, 1, 2] 0,
      (⟨.int 2, 1, [(2, [])]⟩ : Cand).freq ≤ x.freq) ∧
    (∀ x ∈ (workingSetAt [0, 0, 1, 1, 2] 0).dropLast,
      (⟨.int 1, 2, [(1, [])]⟩ : Cand).freq ≤ x.freq) ∧
    buildStep (workingSetAt [0, 0, 1, 1, 2] 0) =
      List.insertionSort candGE ((workingSetAt [0, 0, 1, 1, 2] 0).dropLast.dropLast ++
        [combineCands ⟨.int 2, 1, [(2, [])]⟩ ⟨.int 1, 2, [(1, [])]⟩]) :=
  c6_lowest_two_selected [0, 0, 1, 1, 2] 0 ⟨.int 2, 1, [(2, [])]⟩ ⟨.int 1, 2, [(1, [])]⟩
    (by decide) rfl rfl

/-! ### Frame layout -/

theorem fromBytes2BE_toBytes2BE (n : Nat) : fromBytes2BE (toBytes2BE n) = n := by
  simp only [fromBytes2BE, toBytes2BE, List.foldl_cons, List.foldl_nil]
  omega

/-- C7: every frame produced by `compress` has the layout
`tree_length (2-byte big-endian) ++ tree_bytes ++ padding_count ++
packed bits` — the length field decodes to the tree byte count, the
packed section is the MSB-first chunking of the padded bit string, and
`len(Frame) = 3 + tree_length + len(packed) ≥ 3 + tree_length`. -/
theorem c7_frame_layout (worker frame : List Nat) (h : compress worker = .ok frame) :
    ∃ (tree_bytes : List Nat) (padding : Nat) (packed : List Nat),
      frame = toBytes2BE tree_bytes.length ++ tree_bytes ++ padding :: packed ∧
      tree_bytes.length < 65536 ∧
      fromBytes2BE (frame.take 2) = tree_bytes.length ∧
      (∃ bits : List Bool, packed = chunkBytes bits.length bits) ∧
      frame.length = 3 + tree_bytes.length + packed.length ∧
      3 + tree_bytes.length ≤ frame.length := by
  unfold compress at h
  cases hbt : buildTreeTrace worker with
  | error e => rw [hbt] at h; simp at h
  | ok p =>
    obtain ⟨tree, trace⟩ := p
    rw [hbt] at h
    dsimp only at h
    cases henc : encodeWorker trace worker with
    | none => rw [henc] at h; simp at h
    | some encoded =>
      rw [henc] at h
      dsimp only at h
      simp only [finalizeOutput] at h
      split at h
      · rename_i h16
        rw [Except.ok.injEq] at h
        refine ⟨dumps tree, (8 - encoded.length % 8) % 8, _, h.symm, h16, ?_, ⟨_, rfl⟩, ?_, ?_⟩
        · rw [← h]
          simp only [toBytes2BE, List.cons_append, List.take_succ_cons, List.take_zero]
          exact fromBytes2BE_toBytes2BE _
        · rw [← h]
          simp [toBytes2BE]
          omega
        · rw [← h]
          simp [toBytes2BE]
          omega
      · simp at h

/-- C7 witness: the layout at the concrete frame of `compress(b"ab")`. -/
theorem c7_witness :
    ∃ (tree_bytes : List Nat) (padding : Nat) (packed : List Nat),
      [0, 7, 1, 0, 97, 255, 0, 98, 255, 6, 127] =
        toBytes2BE tree_bytes.length ++ tree_bytes ++ padding :: packed ∧
      tree_bytes.length < 65536 ∧
      fromBytes2BE ([0, 7, 1, 0, 97, 255, 0, 98, 255, 6, 127].take 2) = tree_bytes.length ∧
      (∃ bits : List Bool, packed = chunkBytes bits.length bits) ∧
      ([0, 7, 1, 0, 97, 255, 0, 98, 255, 6, 127] : List Nat).length =
        3 + tree_bytes.length + packed.length ∧
      3 + tree_bytes.length ≤ ([0, 7, 1, 0, 97, 255, 0, 98, 255, 6, 127] : List Nat).length :=
  c7_frame_layout [97, 98] [0, 7, 1, 0, 97, 255, 0, 98, 255, 6, 127] rfl

/-- C10: for every successful compression, the recorded padding count
is `(8 - len(encoded) % 8) % 8`, lies between 0 and 7, makes the padded
bit length a multiple of 8, and exactly that many `'1'` filler bits are
appended before chunking into the frame's packed section. -/
theorem c10_padding_bound (worker frame : List Nat) (h : compress worker = .ok frame) :
    ∃ (tree_bytes : List Nat) (encoded : List Bool) (padding : Nat),
      padding = (8 - encoded.length % 8) % 8 ∧
      padding ≤ 7 ∧
      (encoded.length + padding) % 8 = 0 ∧
      frame = toBytes2BE tree_bytes.length ++ tree_bytes ++
        padding :: chunkBytes (encoded ++ List.replicate padding true).length
          (encoded ++ List.replicate padding true) := by
  unfold compress at h
  cases hbt : buildTreeTrace worker with
  | error e => rw [hbt] at h; simp at h
  | ok p =>
    obtain ⟨tree, trace⟩ := p
    rw [hbt] at h
    dsimp only at h
    cases henc : encodeWorker trace worker with
    | none => rw [henc] at h; simp at h
    | some encoded =>
      rw [henc] at h
      dsimp only at h
      simp only [finalizeOutput] at h
      split at h
      · rw [Except.ok.injEq] at h
        exact ⟨dumps tree, encoded, (8 - encoded.length % 8) % 8, rfl, by omega, by omega, h.symm⟩
      · simp at h

/-- C10 witness: the padding facts at the concrete frame of
`compress(b"ab")` (2 encoded bits, 6 filler bits). -/
theorem c10_witness :
    ∃ (tree_bytes : List Nat) (encoded : List Bool) (padding : Nat),
      padding = (8 - encoded.length % 8) % 8 ∧
      padding ≤ 7 ∧
      (encoded.length + padding) % 8 = 0 ∧
      [0, 7, 1, 0, 97, 255, 0, 98, 255, 6, 127] = toBytes2BE tree_bytes.length ++ tree_bytes ++
        padding :: chunkBytes (encoded ++ List.replicate padding true).length
          (encoded ++ List.replicate padding true) :=
  c10_padding_bound [97, 98] [0, 7, 1, 0, 97, 255, 0, 98, 255, 6, 127] rfl

/-- C9: if the pickled tree is longer than 65535 bytes (so its length
does not fit the 2-byte big-endian length field), the frame-assembly
step of `compress` (lines 197-202) raises the overflow error and the
stored `self.output` field is left unchanged — no partial output. -/
theorem c9_encoding_overflow (tree : PyTree) (byte_convert old : List Nat)
    (h : 65535 < (dumps tree).length) :
    finalizeOutput tree byte_convert = .error .overflowError ∧
    outputAfterFinalize old tree byte_convert = old := by
  have hfo : finalizeOutput tree byte_convert = .error .overflowError := by
    simp only [finalizeOutput]
    rw [if_neg (by omega)]
  refine ⟨hfo, ?_⟩
  unfold outputAfterFinalize
  rw [hfo]

/-- A right comb with `n + 1` leaves, all byte value 0 (used to witness
the overflow error with a concrete oversized tree). -/
def mkComb : Nat → PyTree
  | 0 => .int 0
  | n + 1 => .pair (.int 0) (mkComb n)

theorem length_dumps_mkComb : ∀ n, (dumps (mkComb n)).length = 3 * n + 2 := by
  intro n
  induction n with
  | zero => rfl
  | succ m ih =>
    show (dumps (.pair (.int 0) (mkComb m))).length = 3 * (m + 1) + 2
    simp only [dumps, encNat, natDigits255, List.length_cons, List.length_append, ih]
    simp
    omega

/-- C9 witness: a concrete tree whose serialization is 65537 bytes. -/
theorem c9_witness :
    finalizeOutput (mkComb 21845) [] = .error .overflowError ∧
    outputAfterFinalize [] (mkComb 21845) [] = [] :=
  c9_encoding_overflow (mkComb 21845) [] []
    (by rw [length_dumps_mkComb]; omega)

/-- C8: `decompress` fails — returning an error before any decoding is
attempted — whenever the frame is shorter than 3 bytes, or the declared
tree length exceeds the buffer remaining after the 2-byte header. -/
theorem c8_truncated_frame (worker : List Nat)
    (h : worker.length < 3 ∨ worker.length < fromBytes2BE (worker.take 2) + 2) :
    ∃ e, decompress worker = .error e := by
  rcases h with h | h
  · -- the tree slice is empty, so the unpickling step fails
    have hdrop : worker.drop 2 = [] := List.drop_eq_nil_of_le (by omega)
    refine ⟨.unpicklingError, ?_⟩
    simp only [decompress, hdrop, List.take_nil]
    rfl
  · cases hload : loads ((worker.drop 2).take (fromBytes2BE (worker.take 2))) with
    | error e =>
      refine ⟨e, ?_⟩
      simp only [decompress, hload]
    | ok t =>
      -- the padding byte read `worker[len_tree + 2]` is out of range
      have hdrop : worker.drop (fromBytes2BE (worker.take 2) + 2) = [] :=
        List.drop_eq_nil_of_le (by omega)
      refine ⟨.indexError, ?_⟩
      simp only [decompress, hload, hdrop]
      rfl

/-- C8 witness: the empty frame. -/
theorem c8_witness : ∃ e, decompress [] = .error e :=
  c8_truncated_frame [] (Or.inl (by decide))

/-- C4: for every frame assembled from a correctly declared serialized
tree, a padding byte equal to 0 and any non-empty packed-bits section
of bytes, `decompress` returns the empty byte string — the slice
`bit_string[:-padding]` with `padding = 0` is `bit_string[:0]`, which
discards every packed bit. -/
theorem c4_zero_padding_empty_output (t : PyTree) (packed : List Nat)
    (hlen : (dumps t).length < 65536) (hne : packed ≠ [])
    (hbytes : ∀ b ∈ packed, b < 256) :
    decompress (toBytes2BE (dumps t).length ++ dumps t ++ 0 :: packed) = .ok [] := by
  simp only [decompress]
  have htake2 : ((toBytes2BE (dumps t).length ++ dumps t ++ 0 :: packed).take 2) =
      toBytes2BE (dumps t).length := by
    simp [toBytes2BE]
  rw [htake2, fromBytes2BE_toBytes2BE]
  have hdrop2 : ((toBytes2BE (dumps t).length ++ dumps t ++ 0 :: packed).drop 2) =
      dumps t ++ 0 :: packed := by
    simp [toBytes2BE]
  rw [hdrop2, List.take_left, loads_dumps]
  have hdropn : ((toBytes2BE (dumps t).length ++ dumps t ++ 0 :: packed).drop
      ((dumps t).length + 2)) = 0 :: packed := by
    rw [show toBytes2BE (dumps t).length ++ dumps t ++ 0 :: packed =
      (toBytes2BE (dumps t).length ++ dumps t) ++ 0 :: packed by simp]
    rw [show (dumps t).length + 2 = (toBytes2BE (dumps t).length ++ dumps t).length by
      simp [toBytes2BE]]
    exact List.drop_left _ _
  rw [hdropn]
  rfl

/-- C4 witness: a frame holding the tree of `compress(b"abababab")`,
padding byte 0 and one packed byte `0b01010101`. -/
theorem c4_witness :
    decompress (toBytes2BE (dumps (PyTree.pair (.int 97) (.int 98))).length ++
      dumps (PyTree.pair (.int 97) (.int 98)) ++ 0 :: [85]) = .ok [] :=
  c4_zero_padding_empty_output (PyTree.pair (.int 97) (.int 98)) [85]
    (by decide) (by decide) (by decide)

/-- C1: the round-trip identity fails on the code — on the buffer
`b"abababab"` (two distinct byte values, 8 encoded bits, so padding
count 0), `compress` succeeds but `decompress` of its frame returns the
empty buffer instead of the original, because line 244 slices
`bit_string[:-0] = ""`. -/
theorem c1_roundtrip_fails :
    compress [97, 98, 97, 98, 97, 98, 97, 98] =
      .ok [0, 7, 1, 0, 97, 255, 0, 98, 255, 0, 85] ∧
    decompress [0, 7, 1, 0, 97, 255, 0, 98, 255, 0, 85] = .ok [] ∧
    ([] : List Nat) ≠ [97, 98, 97, 98, 97, 98, 97, 98] :=
  ⟨rfl, rfl, by decide⟩

/-- C2: on the single-distinct-byte buffer `b"aaaa"`, `compress` does
crash — the working set holds one candidate, the loop never runs, and
line 172 reads `sorted_frequency[1]`, raising `IndexError`; no frame is
produced, so nothing can be decompressed back to `b"aaaa"`. -/
theorem c2_single_symbol_crashes : compress [97, 97, 97, 97] = .error .indexError := rfl

/-- C3: on the empty buffer, `compress` neither reports a documented
error kind nor produces an empty frame: the tree-builder finalization
at line 172 reads `sorted_frequency[0]` of an empty working set and
raises `IndexError`. -/
theorem c3_empty_input_crashes : compress [] = .error .indexError := rfl
